import Mathlib

/-
Verification development for the audit-ledger subsystem of the Tribal
Connect Hub backend.  The embedded code is backend/audit/init_.py
(the module-level AUDIT_LOG / AUDIT_SEQ globals, the functions
_hash_entry, append_audit and the handler audit_log) together with
backend/audit/router.py (the handler list_audit_events) and the router
table assembled in backend/app/api/__init__.py.

Modelling conventions.

Python values appearing in audit payloads are embedded as the inductive
type PyVal (strings, ints, lists, dicts); a Python dict is an
insertion-ordered association list, as in CPython.  Machine-level hashing
uses a full executable SHA-256 over Nat bytes (every word is reduced
mod 2 ^ 32 explicitly), mirroring hashlib.sha256(...).hexdigest() on the
UTF-8 encoding of the argument string.

The Python function _hash_entry reads the wall clock internally via
str(time.time()).  A shallow embedding makes that implicit input
explicit: the rendered clock sample is passed as the parameter `now`.
Handlers over module-level mutable globals become functions from the
global state (AuditState) to a pair of the new state and the returned
value; a handler that does not assign the globals returns the state it
received.
-/

namespace TribalHub

/-! ### SHA-256 over Nat (FIPS 180-4), word size 32 bits, everything mod 2^32 -/

/-- Word modulus 2 ^ 32. -/
def w32 : Nat := 4294967296

/-- Reduce to a 32-bit word. -/
def mask32 (a : Nat) : Nat := a % w32

/-- Bitwise complement inside a 32-bit word. -/
def not32 (a : Nat) : Nat := Nat.xor a 4294967295

/-- Right rotation of a 32-bit word by n bits. -/
def rotr (n a : Nat) : Nat := mask32 ((a >>> n) ||| (a <<< (32 - n)))

/-- SHA-256 Ch function. -/
def shaCh (x y z : Nat) : Nat := Nat.xor (Nat.land x y) (Nat.land (not32 x) z)

/-- SHA-256 Maj function. -/
def shaMaj (x y z : Nat) : Nat :=
  Nat.xor (Nat.xor (Nat.land x y) (Nat.land x z)) (Nat.land y z)

/-- SHA-256 big sigma 0. -/
def bsig0 (x : Nat) : Nat := Nat.xor (Nat.xor (rotr 2 x) (rotr 13 x)) (rotr 22 x)

/-- SHA-256 big sigma 1. -/
def bsig1 (x : Nat) : Nat := Nat.xor (Nat.xor (rotr 6 x) (rotr 11 x)) (rotr 25 x)

/-- SHA-256 small sigma 0. -/
def ssig0 (x : Nat) : Nat := Nat.xor (Nat.xor (rotr 7 x) (rotr 18 x)) (x >>> 3)

/-- SHA-256 small sigma 1. -/
def ssig1 (x : Nat) : Nat := Nat.xor (Nat.xor (rotr 17 x) (rotr 19 x)) (x >>> 10)

/-- SHA-256 round constants of FIPS 180-4, in decimal. -/
def shaK : List Nat :=
  [1116352408, 1899447441, 3049323471, 3921009573, 961987163,
   1508970993, 2453635748, 2870763221, 3624381080, 310598401,
   607225278, 1426881987, 1925078388, 2162078206, 2614888103,
   3248222580, 3835390401, 4022224774, 264347078, 604807628,
   770255983, 1249150122, 1555081692, 1996064986, 2554220882,
   2821834349, 2952996808, 3210313671, 3336571891, 3584528711,
   113926993, 338241895, 666307205, 773529912, 1294757372,
   1396182291, 1695183700, 1986661051, 2177026350, 2456956037,
   2730485921, 2820302411, 3259730800, 3345764771, 3516065817,
   3600352804, 4094571909, 275423344, 430227734, 506948616,
   659060556, 883997877, 958139571, 1322822218, 1537002063,
   1747873779, 1955562222, 2024104815, 2227730452, 2361852424,
   2428436474, 2756734187, 3204031479, 3329325298]

/-- SHA-256 initial hash state of FIPS 180-4, in decimal. -/
def shaH0 : List Nat :=
  [1779033703, 3144134277, 1013904242, 2773480762,
   1359893119, 2600822924, 528734635, 1541459225]

/-- One message-schedule extension step on the reversed word list: the head of
the list is the most recently produced word. -/
def scheduleStep (rw : List Nat) : List Nat :=
  mask32 (ssig1 (rw.getD 1 0) + rw.getD 6 0 + ssig0 (rw.getD 14 0) + rw.getD 15 0) :: rw

/-- Iterate the schedule extension n times. -/
def extendW (rw : List Nat) : Nat → List Nat
  | 0 => rw
  | n + 1 => extendW (scheduleStep rw) n

/-- Full 64-word message schedule from the 16 block words. -/
def fullW (ws : List Nat) : List Nat := (extendW ws.reverse 48).reverse

/-- One SHA-256 round on the 8-word working state. -/
def roundStep (st : List Nat) (kw : Nat × Nat) : List Nat :=
  match st with
  | a :: b :: c :: d :: e :: f :: g :: h :: _ =>
      let t1 := mask32 (h + bsig1 e + shaCh e f g + kw.1 + kw.2)
      let t2 := mask32 (bsig0 a + shaMaj a b c)
      [mask32 (t1 + t2), a, b, c, mask32 (d + t1), e, f, g]
  | _ => st

/-- Compress one 16-word block into the running 8-word state. -/
def compress (st : List Nat) (block : List Nat) : List Nat :=
  let st2 := ((fullW block).zip shaK).foldl roundStep st
  (st.zip st2).map (fun p => mask32 (p.1 + p.2))

/-- Big-endian 8-byte rendering of a length in bits. -/
def be64 (n : Nat) : List Nat :=
  [(n >>> 56) % 256, (n >>> 48) % 256, (n >>> 40) % 256, (n >>> 32) % 256,
   (n >>> 24) % 256, (n >>> 16) % 256, (n >>> 8) % 256, n % 256]

/-- SHA-256 padding: append byte 0x80, zero bytes to 56 mod 64, then the
64-bit big-endian bit length. -/
def padBytes (msg : List Nat) : List Nat :=
  let l := msg.length
  msg ++ 128 :: List.replicate ((64 - (l + 9) % 64) % 64) 0 ++ be64 (8 * l)

/-- Group bytes into big-endian 32-bit words. -/
def toWords : List Nat → List Nat
  | b0 :: b1 :: b2 :: b3 :: rest =>
      (b0 * 16777216 + b1 * 65536 + b2 * 256 + b3) :: toWords rest
  | _ => []

/-- Group words into blocks of 16. -/
def chunk16 : List Nat → List (List Nat)
  | w0 :: w1 :: w2 :: w3 :: w4 :: w5 :: w6 :: w7 ::
    w8 :: w9 :: w10 :: w11 :: w12 :: w13 :: w14 :: w15 :: rest =>
      [w0, w1, w2, w3, w4, w5, w6, w7, w8, w9, w10, w11, w12, w13, w14, w15] :: chunk16 rest
  | _ => []

/-- SHA-256 digest of a byte list, as the 8 final state words. -/
def sha256Words (msg : List Nat) : List Nat :=
  (chunk16 (toWords (padBytes msg))).foldl compress shaH0

/-- Lower-case hex digit. -/
def hexChar (n : Nat) : Char :=
  if n < 10 then Char.ofNat (48 + n) else Char.ofNat (87 + n)

/-- Eight hex digits of one 32-bit word, big-endian. -/
def wordHex (w : Nat) : List Char :=
  [hexChar ((w >>> 28) % 16), hexChar ((w >>> 24) % 16),
   hexChar ((w >>> 20) % 16), hexChar ((w >>> 16) % 16),
   hexChar ((w >>> 12) % 16), hexChar ((w >>> 8) % 16),
   hexChar ((w >>> 4) % 16), hexChar (w % 16)]

/-- Hex digest string of a byte list, as hashlib hexdigest produces. -/
def sha256hexBytes (msg : List Nat) : String :=
  String.mk ((sha256Words msg).foldr (fun w acc => wordHex w ++ acc) [])

/-- UTF-8 encoding of one code point. -/
def utf8Bytes (c : Nat) : List Nat :=
  if c < 128 then [c]
  else if c < 2048 then [192 + c / 64, 128 + c % 64]
  else if c < 65536 then [224 + c / 4096, 128 + (c / 64) % 64, 128 + c % 64]
  else [240 + c / 262144, 128 + (c / 4096) % 64, 128 + (c / 64) % 64, 128 + c % 64]

/-- UTF-8 bytes of a string, as the Python str.encode default. -/
def strBytes (s : String) : List Nat :=
  s.data.foldr (fun c acc => utf8Bytes c.toNat ++ acc) []

/-- hashlib.sha256(s.encode()).hexdigest() for a string s. -/
def sha256hex (s : String) : String := sha256hexBytes (strBytes s)

/-- Sanity check against the FIPS 180-4 test vector for the empty message. -/
example : sha256hex "" = "e3b0c44298fc1c149afbf4c8996fb92427ae41e4649b934ca495991b7852b855" := by
  decide

/-- Sanity check against the FIPS 180-4 test vector for the message abc. -/
example : sha256hex "abc" = "ba7816bf8f01cfea414140de5dae2223b00361a396177a9cb410ff61f20015ad" := by
  decide

/-! ### Python values and dicts

A CPython dict is insertion-ordered; it is embedded as an association
list whose set operation replaces the value in place when the key is
already present and appends at the end otherwise, exactly the CPython
update rule.  Payload values occurring in scope are strings, ints,
lists and dicts. -/

/-- A Python value as used in audit payloads. -/
inductive PyVal where
  | str : String → PyVal
  | int : Int → PyVal
  | list : List PyVal → PyVal
  | dict : List (String × PyVal) → PyVal

/-- A Python dict with string keys, in insertion order. -/
abbrev PyDict := List (String × PyVal)

/-- Python d.get(key) on a string-keyed dict. -/
def dictGet : PyDict → String → Option PyVal
  | [], _ => none
  | (k, v) :: rest, key => if k = key then some v else dictGet rest key

/-- Python d[key] = v on a string-keyed dict: replace in place, else append. -/
def dictSet : PyDict → String → PyVal → PyDict
  | [], key, v => [(key, v)]
  | (k, w) :: rest, key, v =>
      if k = key then (key, v) :: rest else (k, w) :: dictSet rest key v

/-- Python m.get(key) on the int-keyed AUDIT_LOG dict. -/
def logGet : List (Int × PyDict) → Int → Option PyDict
  | [], _ => none
  | (k, v) :: rest, key => if k = key then some v else logGet rest key

/-- Python m[key] = v on the int-keyed AUDIT_LOG dict. -/
def logSet : List (Int × PyDict) → Int → PyDict → List (Int × PyDict)
  | [], key, v => [(key, v)]
  | (k, w) :: rest, key, v =>
      if k = key then (key, v) :: rest else (k, w) :: logSet rest key v

/-- Python m.get(key, \x7b\x7d): lookup with empty-dict default. -/
def logGetD (m : List (Int × PyDict)) (key : Int) : PyDict :=
  match logGet m key with
  | some d => d
  | none => []

/-- Python d.get("hash", "") as used by append_audit.  The entries stored by
append_audit always carry a str at the key hash; a non-str value there would
make the later string concatenation in _hash_entry raise TypeError, so the
non-str branch is dead code on states the module itself builds. -/
def getHashStrD (d : PyDict) : String :=
  match dictGet d "hash" with
  | some (PyVal.str s) => s
  | some _ => ""
  | none => ""

/-! ### Python textual rendering, as str(entry) uses

CPython str on a dict is its repr: keys and string values in quotes
(single quotes by default; double quotes when the string contains a
single quote and no double quote; backslash and the chosen quote are
escaped), ints in decimal, items joined by comma-space inside braces.
Control-character escapes are outside the scope of the payloads in this
repository and are not modelled. -/

/-- Single-quote character. -/
def sq : Char := Char.ofNat 39

/-- Double-quote character. -/
def dq : Char := Char.ofNat 34

/-- Backslash character. -/
def bsl : Char := Char.ofNat 92

/-- Escape one character inside a Python string repr with quote q. -/
def escChar (q c : Char) : List Char :=
  if c = bsl then [bsl, bsl] else if c = q then [bsl, q] else [c]

/-- Python repr of a str: quote choice and escaping as in CPython. -/
def reprStr (s : String) : String :=
  let q := if s.data.contains sq && !(s.data.contains dq) then dq else sq
  String.mk (q :: s.data.foldr (fun c acc => escChar q c ++ acc) [q])

mutual

/-- Python repr of a value. -/
def pyRepr : PyVal → String
  | PyVal.str s => reprStr s
  | PyVal.int n => toString n
  | PyVal.list vs => "[" ++ pyReprItems vs ++ "]"
  | PyVal.dict kvs => "\x7b" ++ pyReprPairs kvs ++ "\x7d"

/-- Comma-space joined reprs of list items. -/
def pyReprItems : List PyVal → String
  | [] => ""
  | [v] => pyRepr v
  | v :: rest => pyRepr v ++ ", " ++ pyReprItems rest

/-- Comma-space joined key: value reprs of dict items. -/
def pyReprPairs : List (String × PyVal) → String
  | [] => ""
  | [(k, v)] => reprStr k ++ ": " ++ pyRepr v
  | (k, v) :: rest => reprStr k ++ ": " ++ pyRepr v ++ ", " ++ pyReprPairs rest

end

/-! ### The audit module state and operations (backend/audit/init_.py) -/

/-- The module-level mutable globals AUDIT_LOG and AUDIT_SEQ. -/
structure AuditState where
  log : List (Int × PyDict)
  seq : Int

/-- Initial module state: AUDIT_LOG = \x7b\x7d, AUDIT_SEQ = 0. -/
def emptyState : AuditState := ⟨[], 0⟩

/-- Python `s or ""` on a string: the empty string is falsy. -/
def pyOrEmpty (s : String) : String := if s = "" then "" else s

/-- The function _hash_entry of backend/audit/init_.py:
raw = (prev_hash or "") + str(entry) + str(time.time());
return hashlib.sha256(raw.encode()).hexdigest().
The parameter `now` is the rendering str(time.time()) of the wall-clock
sample the Python code reads internally, made an explicit input by the
shallow embedding. -/
def _hash_entry (now : String) (prev_hash : String) (entry : PyDict) : String :=
  sha256hex (pyOrEmpty prev_hash ++ pyRepr (PyVal.dict entry) ++ now)

/-- The stored record \x7b**entry, "hash": h, "prev_hash": prev_hash\x7d. -/
def mkStored (entry : PyDict) (prev h : String) : PyDict :=
  dictSet (dictSet entry "hash" (PyVal.str h)) "prev_hash" (PyVal.str prev)

/-- The function append_audit of backend/audit/init_.py, as a state
transformer over the module globals; the second component is the Python
return value, the hash string h. -/
def append_audit (s : AuditState) (entry : PyDict) (now : String) : AuditState × PyVal :=
  let prev_hash := getHashStrD (logGetD s.log (s.seq - 1))
  let h := _hash_entry now prev_hash entry
  (⟨logSet s.log s.seq (mkStored entry prev_hash h), s.seq + 1⟩, PyVal.str h)

/-- The handler audit_log of backend/audit/init_.py: reads the globals and
returns \x7b"entries": list(AUDIT_LOG.values())\x7d without assigning them. -/
def audit_log (s : AuditState) : AuditState × PyVal :=
  (s, PyVal.dict [("entries", PyVal.list (s.log.map (fun kv => PyVal.dict kv.2)))])

/-- The handler list_audit_events of backend/audit/router.py: its body is
the constant \x7b"events": []\x7d and reads no state. -/
def list_audit_events (s : AuditState) : AuditState × PyVal :=
  (s, PyVal.dict [("events", PyVal.list [])])

/-- The GET routes of the application api_router that live under the /audit
path.  backend/app/api/__init__.py includes, in order, the routers of
backend.tribal_core (prefix /core), backend.tenants.router (/tenants),
backend.approvals.router (/approvals), backend.audit.router (/audit),
backend.native_registry.router (/native-registry) and app.api.routes.health
(no prefix, paths /health...); only backend.audit.router contributes a
path under /audit, its GET "" handler list_audit_events.  The router held
in backend/audit/init_.py, whose GET handler is audit_log, is imported
nowhere and therefore mounted nowhere. -/
def api_router : List (String × (AuditState → AuditState × PyVal)) :=
  [("GET /audit", list_audit_events)]

/-- Route lookup in a router table. -/
def routeLookup (routes : List (String × (AuditState → AuditState × PyVal)))
    (p : String) : Option (AuditState → AuditState × PyVal) :=
  match routes with
  | [] => none
  | (q, h) :: rest => if q = p then some h else routeLookup rest p

/-! ### Traces of appends -/

/-- Fold a list of (payload, clock sample) pairs through append_audit. -/
def appendAll (s : AuditState) (l : List (PyDict × String)) : AuditState :=
  l.foldl (fun st et => (append_audit st et.1 et.2).1) s

/-- State after a sequence of appends starting from the empty module state. -/
def runAppends (l : List (PyDict × String)) : AuditState :=
  appendAll emptyState l

/-- Stored entry of a state at a sequence number. -/
def storedEntry (s : AuditState) (i : Int) : Option PyDict := logGet s.log i

/-- Value at the key hash of the stored entry at i. -/
def storedHash (s : AuditState) (i : Int) : Option PyVal :=
  (storedEntry s i).bind (fun d => dictGet d "hash")

/-- Value at the key prev_hash of the stored entry at i. -/
def storedPrev (s : AuditState) (i : Int) : Option PyVal :=
  (storedEntry s i).bind (fun d => dictGet d "prev_hash")

/-! ### Association-list lemmas for the dict operations -/

theorem dictGet_dictSet_self (d : PyDict) (k : String) (v : PyVal) :
    dictGet (dictSet d k v) k = some v := by
  induction d with
  | nil => simp [dictSet, dictGet]
  | cons p rest ih =>
      obtain ⟨k1, v1⟩ := p
      by_cases h : k1 = k
      · simp [dictSet, h, dictGet]
      · simp [dictSet, h, dictGet, ih]

theorem dictGet_dictSet_ne (d : PyDict) (k k2 : String) (v : PyVal) (hne : k ≠ k2) :
    dictGet (dictSet d k v) k2 = dictGet d k2 := by
  induction d with
  | nil => simp [dictSet, dictGet, hne]
  | cons p rest ih =>
      obtain ⟨k1, v1⟩ := p
      by_cases h : k1 = k
      · subst h
        simp [dictSet, dictGet, hne, ih]
      · by_cases h2 : k1 = k2
        · subst h2
          simp [dictSet, h, dictGet]
        · simp [dictSet, h, dictGet, h2, ih]

theorem logGet_logSet_self (m : List (Int × PyDict)) (k : Int) (d : PyDict) :
    logGet (logSet m k d) k = some d := by
  induction m with
  | nil => simp [logSet, logGet]
  | cons p rest ih =>
      obtain ⟨k1, v1⟩ := p
      by_cases h : k1 = k
      · simp [logSet, h, logGet]
      · simp [logSet, h, logGet, ih]

theorem logSet_not_mem (m : List (Int × PyDict)) (k : Int) (d : PyDict)
    (h : logGet m k = none) : logSet m k d = m ++ [(k, d)] := by
  induction m with
  | nil => simp [logSet]
  | cons p rest ih =>
      obtain ⟨k1, v1⟩ := p
      by_cases hk : k1 = k
      · simp [logGet, hk] at h
      · simp [logGet, hk] at h
        simp [logSet, hk, ih h]

theorem logGet_none_of_lt (m : List (Int × PyDict)) (k : Int)
    (h : ∀ p ∈ m, p.1 < k) : logGet m k = none := by
  induction m with
  | nil => rfl
  | cons p rest ih =>
      obtain ⟨k1, v1⟩ := p
      have h1 : k1 < k := h (k1, v1) (by simp)
      have hne : k1 ≠ k := by omega
      simp [logGet, hne]
      exact ih (fun q hq => h q (by simp [hq]))

theorem logGet_append_left (m m2 : List (Int × PyDict)) (k : Int) (d : PyDict)
    (h : logGet m k = some d) : logGet (m ++ m2) k = some d := by
  induction m with
  | nil => simp [logGet] at h
  | cons p rest ih =>
      obtain ⟨k1, v1⟩ := p
      by_cases hk : k1 = k
      · simp [logGet, hk] at h ⊢
        exact h
      · simp [logGet, hk] at h ⊢
        exact ih h

theorem logGet_append_right (m m2 : List (Int × PyDict)) (k : Int)
    (h : logGet m k = none) : logGet (m ++ m2) k = logGet m2 k := by
  induction m with
  | nil => rfl
  | cons p rest ih =>
      obtain ⟨k1, v1⟩ := p
      by_cases hk : k1 = k
      · simp [logGet, hk] at h
      · simp [logGet, hk] at h ⊢
        exact ih h

theorem mkStored_hash (e : PyDict) (prev h : String) :
    dictGet (mkStored e prev h) "hash" = some (PyVal.str h) := by
  unfold mkStored
  rw [dictGet_dictSet_ne _ _ _ _ (by decide)]
  exact dictGet_dictSet_self e "hash" (PyVal.str h)

theorem mkStored_prev (e : PyDict) (prev h : String) :
    dictGet (mkStored e prev h) "prev_hash" = some (PyVal.str prev) := by
  unfold mkStored
  exact dictGet_dictSet_self _ "prev_hash" (PyVal.str prev)

theorem getHashStrD_mkStored (e : PyDict) (prev h : String) :
    getHashStrD (mkStored e prev h) = h := by
  unfold getHashStrD
  rw [mkStored_hash]

/-! ### Shape of the ledger after a trace of appends -/

/-- The log entries a trace of appends produces, given the running previous
hash and the next sequence number. -/
def chainFrom (prev : String) (i : Int) : List (PyDict × String) → List (Int × PyDict)
  | [] => []
  | (e, now) :: rest =>
      (i, mkStored e prev (_hash_entry now prev e)) ::
        chainFrom (_hash_entry now prev e) (i + 1) rest

/-- The hash assigned to the j-th entry of a trace, given the running
previous hash. -/
def chainHash (prev : String) : List (PyDict × String) → Nat → String
  | [], _ => prev
  | (e, now) :: _, 0 => _hash_entry now prev e
  | (e, now) :: rest, j + 1 => chainHash (_hash_entry now prev e) rest j

/-- Integer interval [i, i + n) as a list. -/
def intRange (i : Int) : Nat → List Int
  | 0 => []
  | n + 1 => i :: intRange (i + 1) n

theorem mem_intRange (n : Nat) : ∀ (i j : Int), j ∈ intRange i n ↔ i ≤ j ∧ j < i + n := by
  induction n with
  | zero => intro i j; simp [intRange]
  | succ np ih =>
      intro i j
      simp only [intRange, List.mem_cons, ih (i + 1) j]
      constructor
      · rintro (rfl | ⟨h1, h2⟩) <;> constructor <;> omega
      · rintro ⟨h1, h2⟩
        by_cases hj : j = i
        · exact Or.inl hj
        · right
          constructor <;> omega

theorem intRange_nodup (n : Nat) : ∀ i : Int, (intRange i n).Nodup := by
  induction n with
  | zero => intro i; simp [intRange]
  | succ np ih =>
      intro i
      simp only [intRange, List.nodup_cons]
      refine ⟨fun hmem => ?_, ih (i + 1)⟩
      rw [mem_intRange] at hmem
      omega

theorem chainFrom_keys (l : List (PyDict × String)) :
    ∀ (prev : String) (i : Int),
      (chainFrom prev i l).map Prod.fst = intRange i l.length := by
  induction l with
  | nil => intro prev i; rfl
  | cons et rest ih =>
      intro prev i
      obtain ⟨e, now⟩ := et
      simp [chainFrom, intRange, ih]

theorem appendAll_chainFrom (l : List (PyDict × String)) :
    ∀ (m : List (Int × PyDict)) (i : Int) (prev : String),
      (∀ p ∈ m, p.1 < i) →
      getHashStrD (logGetD m (i - 1)) = prev →
      appendAll ⟨m, i⟩ l = ⟨m ++ chainFrom prev i l, i + l.length⟩ := by
  induction l with
  | nil =>
      intro m i prev hk hp
      simp [appendAll, chainFrom]
  | cons et rest ih =>
      intro m i prev hk hp
      obtain ⟨e, now⟩ := et
      have hnone : logGet m i = none := logGet_none_of_lt m i hk
      have hstep : (append_audit ⟨m, i⟩ e now).1 =
          ⟨m ++ [(i, mkStored e prev (_hash_entry now prev e))], i + 1⟩ := by
        simp only [append_audit, hp]
        rw [logSet_not_mem m i _ hnone]
      have hk2 : ∀ p ∈ m ++ [(i, mkStored e prev (_hash_entry now prev e))], p.1 < i + 1 := by
        intro p hp2
        rcases List.mem_append.1 hp2 with hin | hin
        · have := hk p hin
          omega
        · simp at hin
          rw [hin]
          show i < i + 1
          omega
      have hp2 : getHashStrD (logGetD (m ++ [(i, mkStored e prev (_hash_entry now prev e))])
          ((i + 1) - 1)) = _hash_entry now prev e := by
        have hi1 : (i + 1) - 1 = i := by omega
        rw [hi1]
        unfold logGetD
        rw [logGet_append_right m _ i hnone]
        simp [logGet, getHashStrD_mkStored]
      have hrest := ih (m ++ [(i, mkStored e prev (_hash_entry now prev e))]) (i + 1)
        (_hash_entry now prev e) hk2 hp2
      have hfold : appendAll ⟨m, i⟩ ((e, now) :: rest) =
          appendAll (append_audit ⟨m, i⟩ e now).1 rest := rfl
      rw [hfold, hstep, hrest]
      simp [chainFrom, List.append_assoc]
      omega

theorem runAppends_eq (l : List (PyDict × String)) :
    runAppends l = ⟨chainFrom "" 0 l, (l.length : Int)⟩ := by
  have := appendAll_chainFrom l [] 0 "" (by simp) rfl
  simpa [runAppends, emptyState] using this

theorem chainHash_cons (e : PyDict) (now : String) (rest : List (PyDict × String))
    (prev : String) (jp : Nat) :
    chainHash prev ((e, now) :: rest) jp =
      if jp = 0 then _hash_entry now prev e
      else chainHash (_hash_entry now prev e) rest (jp - 1) := by
  cases jp <;> simp [chainHash]

theorem chainFrom_hash_at (l : List (PyDict × String)) :
    ∀ (prev : String) (i : Int) (j : Nat), j < l.length →
      (logGet (chainFrom prev i l) (i + j)).bind (fun d => dictGet d "hash") =
        some (PyVal.str (chainHash prev l j)) := by
  induction l with
  | nil =>
      intro prev i j hj
      exact absurd hj (by simp)
  | cons et rest ih =>
      intro prev i j hj
      obtain ⟨e, now⟩ := et
      cases j with
      | zero =>
          simp [chainFrom, logGet, chainHash, mkStored_hash]
      | succ jp =>
          have hne : ¬ (i = i + ((jp : Nat) + 1 : Nat)) := by
            push_cast
            omega
          have hidx : i + ((jp : Nat) + 1 : Nat) = (i + 1) + (jp : Nat) := by
            push_cast
            omega
          simp only [chainFrom, logGet, if_neg hne, chainHash]
          rw [hidx]
          exact ih (_hash_entry now prev e) (i + 1) jp (by simpa using hj)

theorem chainFrom_prev_at (l : List (PyDict × String)) :
    ∀ (prev : String) (i : Int) (j : Nat), j < l.length →
      (logGet (chainFrom prev i l) (i + j)).bind (fun d => dictGet d "prev_hash") =
        some (PyVal.str (if j = 0 then prev else chainHash prev l (j - 1))) := by
  induction l with
  | nil =>
      intro prev i j hj
      exact absurd hj (by simp)
  | cons et rest ih =>
      intro prev i j hj
      obtain ⟨e, now⟩ := et
      cases j with
      | zero =>
          simp [chainFrom, logGet, mkStored_prev]
      | succ jp =>
          have hne : ¬ (i = i + ((jp : Nat) + 1 : Nat)) := by
            push_cast
            omega
          have hidx : i + ((jp : Nat) + 1 : Nat) = (i + 1) + (jp : Nat) := by
            push_cast
            omega
          simp only [chainFrom, logGet, if_neg hne]
          rw [hidx, ih (_hash_entry now prev e) (i + 1) jp (by simpa using hj)]
          rw [chainHash_cons]
          simp

/-! ### Spec-modelled definitions

The two definitions below render spec text rather than repository code
and are marked as such; everything they are compared against is the
embedded source. -/

/-- Stored fields of an entry other than the chain fields, the payload part
of the record a verifier can read back. -/
def stripChain (d : PyDict) : PyDict :=
  d.filter (fun kv => !(kv.1 == "hash") && !(kv.1 == "prev_hash"))

/-- Modelled from the spec: the Verifier of spec section 4.4 is absent from
src/ (no verify operation exists anywhere in the repository).  Following the
spec words, it walks the stored entries in increasing sequence order,
recomputes the expected previous hash (the hash of the preceding entry, or
the genesis value for the first entry) and the expected hash via the Hash
Chain Engine from stored fields, and reports ok only if every comparison
matches.  The Hash Chain Engine of this repository is _hash_entry, which
consumes a wall-clock rendering; since the stored record keeps no
timestamp, the recomputation must supply the clock sample tv current at
verification time. -/
def verifyFrom (tv prev : String) : List (Int × PyDict) → Bool
  | [] => true
  | (_, d) :: rest =>
      let prevOk := match dictGet d "prev_hash" with
        | some (PyVal.str p) => p == prev
        | _ => false
      match dictGet d "hash" with
      | some (PyVal.str hs) =>
          prevOk && (hs == _hash_entry tv prev (stripChain d)) && verifyFrom tv hs rest
      | _ => false

/-- Modelled from the spec: verify over the whole stored range, reporting
only the ok flag of the VerificationResult. -/
def verifySpec (tv : String) (s : AuditState) : Bool := verifyFrom tv "" s.log

/-- Modelled from the spec: the return contract
append(payload) -> \x7bsequence, timestamp, hash\x7d of spec section 6, as a
predicate on the value append returns to the caller. -/
def returnsFullRecord (ret : PyVal) : Prop :=
  ∃ kvs : PyDict, ret = PyVal.dict kvs ∧ (dictGet kvs "sequence").isSome ∧
    (dictGet kvs "timestamp").isSome ∧ (dictGet kvs "hash").isSome

/-! ### Claim theorems -/

/-- C2: in every ledger state reachable from the empty module state by a
sequence of appends, the entry stored at sequence 0 has prev_hash equal to
the genesis value, the empty string, and the entry stored at any sequence
i = jp + 1 has prev_hash equal to the hash of the entry stored at jp. -/
theorem audit_chain_linkage (l : List (PyDict × String)) (i : Nat) (hi : i < l.length) :
    (i = 0 → storedPrev (runAppends l) 0 = some (PyVal.str "")) ∧
    (∀ jp : Nat, i = jp + 1 →
      storedPrev (runAppends l) i = storedHash (runAppends l) jp ∧
      (storedHash (runAppends l) jp).isSome) := by
  have hrun := runAppends_eq l
  constructor
  · intro h0
    subst h0
    have hb := chainFrom_prev_at l "" 0 0 hi
    simp only [storedPrev, storedEntry, hrun]
    simpa using hb
  · intro jp hjp
    subst hjp
    have hb := chainFrom_prev_at l "" 0 (jp + 1) hi
    have ha := chainFrom_hash_at l "" 0 jp (by omega)
    rw [zero_add] at hb ha
    constructor
    · simp only [storedPrev, storedHash, storedEntry, hrun]
      rw [hb, ha]
      simp
    · simp only [storedHash, storedEntry, hrun]
      rw [ha]
      rfl

/-- C2 witness: the linkage at sequence 1 of a concrete two-append trace. -/
theorem audit_chain_linkage_witness :
    storedPrev (runAppends [([("action", PyVal.str "approve")], "1000.0"),
      ([("action", PyVal.str "deny")], "1001.5")]) 1 =
    storedHash (runAppends [([("action", PyVal.str "approve")], "1000.0"),
      ([("action", PyVal.str "deny")], "1001.5")]) 0 :=
  ((audit_chain_linkage [([("action", PyVal.str "approve")], "1000.0"),
      ([("action", PyVal.str "deny")], "1001.5")] 1 (by decide)).2 0 rfl).1

/-- C6: after n appends from the empty module state the counter AUDIT_SEQ
equals n and the stored keys are exactly the sequences 0..n-1, in order,
without duplicates and without gaps. -/
theorem audit_sequences_gapless (l : List (PyDict × String)) :
    (runAppends l).seq = l.length ∧
    (runAppends l).log.map Prod.fst = intRange 0 l.length ∧
    ((runAppends l).log.map Prod.fst).Nodup := by
  have hrun := runAppends_eq l
  refine ⟨?_, ?_, ?_⟩
  · rw [hrun]
  · rw [hrun]
    exact chainFrom_keys l "" 0
  · rw [hrun]
    show ((chainFrom "" 0 l).map Prod.fst).Nodup
    rw [chainFrom_keys l "" 0]
    exact intRange_nodup l.length 0

/-- C7: append leaves every previously stored entry unchanged in all fields,
and the read handlers audit_log and list_audit_events return the state they
received, mutating nothing. -/
theorem audit_append_frame (l ext : List (PyDict × String)) (i : Int) (d : PyDict)
    (h : storedEntry (runAppends l) i = some d) :
    storedEntry (runAppends (l ++ ext)) i = some d ∧
    (audit_log (runAppends (l ++ ext))).1 = runAppends (l ++ ext) ∧
    (list_audit_events (runAppends (l ++ ext))).1 = runAppends (l ++ ext) := by
  refine ⟨?_, rfl, rfl⟩
  have hrun := runAppends_eq l
  have hsplit : runAppends (l ++ ext) = appendAll (runAppends l) ext := by
    simp [runAppends, appendAll, List.foldl_append]
  have hkeys : ∀ p ∈ chainFrom "" 0 l, p.1 < (l.length : Int) := by
    intro p hp2
    have hmem : p.1 ∈ (chainFrom "" 0 l).map Prod.fst := List.mem_map_of_mem Prod.fst hp2
    rw [chainFrom_keys l "" 0, mem_intRange] at hmem
    omega
  have happ := appendAll_chainFrom ext (chainFrom "" 0 l) (l.length : Int)
      (getHashStrD (logGetD (chainFrom "" 0 l) ((l.length : Int) - 1))) hkeys rfl
  have hlog : (runAppends (l ++ ext)).log = chainFrom "" 0 l ++
      chainFrom (getHashStrD (logGetD (chainFrom "" 0 l) ((l.length : Int) - 1)))
        (l.length : Int) ext := by
    rw [hsplit, hrun, happ]
  have h2 : logGet (chainFrom "" 0 l) i = some d := by
    simpa [storedEntry, hrun] using h
  simp only [storedEntry, hlog]
  exact logGet_append_left _ _ i d h2

/-- C7 witness: the first stored entry survives a further append unchanged. -/
theorem audit_append_frame_witness :
    storedEntry (runAppends [([("action", PyVal.str "approve")], "1000.0")]) 0 =
      some (mkStored [("action", PyVal.str "approve")] ""
        (_hash_entry "1000.0" "" [("action", PyVal.str "approve")])) ∧
    storedEntry (runAppends ([([("action", PyVal.str "approve")], "1000.0")] ++
      [([("action", PyVal.str "deny")], "1001.5")])) 0 =
      some (mkStored [("action", PyVal.str "approve")] ""
        (_hash_entry "1000.0" "" [("action", PyVal.str "approve")])) :=
  ⟨rfl,
    (audit_append_frame [([("action", PyVal.str "approve")], "1000.0")]
      [([("action", PyVal.str "deny")], "1001.5")] 0
      (mkStored [("action", PyVal.str "approve")] ""
        (_hash_entry "1000.0" "" [("action", PyVal.str "approve")])) rfl).1⟩

/-- C10: when the caller payload itself contains the key hash or the key
prev_hash, the stored record is the payload with those keys overwritten by
the chain-computed hash and the previous hash, so the caller values at those
keys are absent from the stored record. -/
theorem audit_payload_chain_keys_overwritten (s : AuditState) (e : PyDict) (now : String)
    (hkeys : (dictGet e "hash").isSome ∨ (dictGet e "prev_hash").isSome) :
    storedEntry (append_audit s e now).1 s.seq =
      some (mkStored e (getHashStrD (logGetD s.log (s.seq - 1)))
        (_hash_entry now (getHashStrD (logGetD s.log (s.seq - 1))) e)) ∧
    dictGet (mkStored e (getHashStrD (logGetD s.log (s.seq - 1)))
        (_hash_entry now (getHashStrD (logGetD s.log (s.seq - 1))) e)) "hash" =
      some (PyVal.str (_hash_entry now (getHashStrD (logGetD s.log (s.seq - 1))) e)) ∧
    dictGet (mkStored e (getHashStrD (logGetD s.log (s.seq - 1)))
        (_hash_entry now (getHashStrD (logGetD s.log (s.seq - 1))) e)) "prev_hash" =
      some (PyVal.str (getHashStrD (logGetD s.log (s.seq - 1)))) := by
  refine ⟨?_, mkStored_hash _ _ _, mkStored_prev _ _ _⟩
  simp only [storedEntry, append_audit]
  exact logGet_logSet_self _ _ _

/-- C10 witness: a payload carrying its own hash key, appended to the empty
state; the stored record carries the chain hash instead. -/
theorem audit_payload_chain_keys_overwritten_witness :
    ((dictGet [("hash", PyVal.str "evil")] "hash").isSome ∨
      (dictGet [("hash", PyVal.str "evil")] "prev_hash").isSome) ∧
    storedEntry (append_audit emptyState [("hash", PyVal.str "evil")] "1000.0").1 0 =
      some (mkStored [("hash", PyVal.str "evil")] ""
        (_hash_entry "1000.0" "" [("hash", PyVal.str "evil")])) :=
  ⟨Or.inl (by decide),
    (audit_payload_chain_keys_overwritten emptyState [("hash", PyVal.str "evil")] "1000.0"
      (Or.inl (by decide))).1⟩

/-- C8 counterexample: at a concrete input the value append_audit returns is
the bare hash string, not a record carrying sequence, timestamp and hash as
the spec return contract requires. -/
theorem audit_append_return_not_record :
    ¬ returnsFullRecord
      (append_audit emptyState [("action", PyVal.str "approve")] "1000.0").2 := by
  intro hfull
  obtain ⟨kvs, heq, -, -, -⟩ := hfull
  have hret : (append_audit emptyState [("action", PyVal.str "approve")] "1000.0").2 =
      PyVal.str (_hash_entry "1000.0" "" [("action", PyVal.str "approve")]) := rfl
  rw [hret] at heq
  exact PyVal.noConfusion heq

/-- C8 amended: append returns the entry hash alone, the same string stored
at the key hash of the newly stored record; the assigned sequence and any
timestamp are not part of the return value. -/
theorem audit_append_returns_hash_only (s : AuditState) (e : PyDict) (now : String) :
    ∃ hh : String, (append_audit s e now).2 = PyVal.str hh ∧
      (storedEntry (append_audit s e now).1 s.seq).bind (fun d => dictGet d "hash") =
        some (PyVal.str hh) := by
  refine ⟨_hash_entry now (getHashStrD (logGetD s.log (s.seq - 1))) e, rfl, ?_⟩
  simp only [storedEntry, append_audit]
  rw [logGet_logSet_self]
  simp [mkStored_hash]

/-- C9: the handler mounted at GET /audit on the application router is
list_audit_events of backend/audit/router.py; it returns the constant
events: [] for every ledger state and never reflects an entry recorded via
append_audit. -/
theorem audit_mounted_route_constant :
    routeLookup api_router "GET /audit" = some list_audit_events ∧
    (∀ s : AuditState, list_audit_events s = (s, PyVal.dict [("events", PyVal.list [])])) ∧
    (∀ (s : AuditState) (e : PyDict) (now : String),
      (list_audit_events ((append_audit s e now).1)).2 = (list_audit_events s).2) :=
  ⟨rfl, fun _ => rfl, fun _ _ _ => rfl⟩

/-- C1: the stored hash is not a function of the stored fields alone; the
same payload appended over the same previous hash yields different hashes
for different internal wall-clock samples, so the hash computation does read
the wall clock. -/
theorem audit_hash_depends_on_clock :
    _hash_entry "1000.0" "" [("action", PyVal.str "approve")] ≠
      _hash_entry "1000.1" "" [("action", PyVal.str "approve")] := by
  decide

/-- C3: verification replayed from the stored fields only matches when the
verifier happens to resample the exact clock rendering the append consumed;
at any later clock sample the recomputed hash differs and verify reports
false even though the single append succeeded. -/
theorem audit_verify_needs_clock :
    verifySpec "1000.0" (runAppends [([("action", PyVal.str "approve")], "1000.0")]) = true ∧
    verifySpec "1001.0" (runAppends [([("action", PyVal.str "approve")], "1000.0")]) = false :=
  ⟨by decide, by decide⟩

/-- C4: the serialization str(entry) preserves dict insertion order: two
payloads equal as key-value mappings render differently and hash
differently when their insertion orders differ. -/
theorem audit_serialization_order_dependent :
    dictGet [("a", PyVal.int 1), ("b", PyVal.int 2)] "a" =
      dictGet [("b", PyVal.int 2), ("a", PyVal.int 1)] "a" ∧
    dictGet [("a", PyVal.int 1), ("b", PyVal.int 2)] "b" =
      dictGet [("b", PyVal.int 2), ("a", PyVal.int 1)] "b" ∧
    pyRepr (PyVal.dict [("a", PyVal.int 1), ("b", PyVal.int 2)]) ≠
      pyRepr (PyVal.dict [("b", PyVal.int 2), ("a", PyVal.int 1)]) ∧
    _hash_entry "1000.0" "" [("a", PyVal.int 1), ("b", PyVal.int 2)] ≠
      _hash_entry "1000.0" "" [("b", PyVal.int 2), ("a", PyVal.int 1)] :=
  ⟨rfl, rfl, by decide, by decide⟩

/-- C5: the record stored for an appended entry carries only the payload
keys plus hash and prev_hash; no timestamp field and no sequence field is
stored, the wall-clock sample having been consumed inside _hash_entry and
discarded. -/
theorem audit_stored_record_fields :
    (logGetD (runAppends [([("action", PyVal.str "approve")], "1000.0")]).log 0).map
        Prod.fst = ["action", "hash", "prev_hash"] ∧
    (dictGet (logGetD (runAppends [([("action", PyVal.str "approve")], "1000.0")]).log 0)
        "timestamp").isNone = true ∧
    (dictGet (logGetD (runAppends [([("action", PyVal.str "approve")], "1000.0")]).log 0)
        "sequence").isNone = true :=
  ⟨rfl, rfl, rfl⟩

end TribalHub
